import Mathlib

/-!
Shallow embedding of `src/regex.py`: a regex-to-NFA compiler (`RegexFSM.__init__`)
and simulator (`RegexFSM.check_string`), with the epsilon-closure computation
(`RegexFSM.get_closure`) and the per-state character predicates (`check_self`).

Python-semantics notes reflected in the embedding:

* Every `State` subclass in the source declares `next_states: list[State] = []`
  as a class attribute and never assigns a per-instance list, so all instances
  of one class share a single edge list.  The embedding therefore keeps one
  list per class (`startN`, `termN`, `dotN`, `asciiN`, `starN`, `plusN`) in a
  module-level state `BuildSt`, which also records every allocated node's kind
  in `kinds`, indexed by allocation order (playing the role of object identity).
  Constructing a second automaton continues from the module state left by the
  first, exactly as the shared class attributes do in Python.

* Python exceptions are modelled with `Except PyErr`: `attributeError` models
  the `AttributeError` from `None.check_self(...)` (a quantifier token compiled
  in character position stores `checking_state = None`), `recursionError`
  models exceeding the interpreter recursion limit inside `StarState.check_self`
  (the fuel argument of `checkSelf` plays the role of the recursion limit), and
  `notImplementedError` models the raise in the dead method `State.check_next`.
  `fuelExhausted` is a model artifact for the closure worklist fuel; the
  closure-termination theorem below shows it is never produced on built
  automata.

* Python `set`s of states are modelled as duplicate-free `List Nat` with
  membership-checked insertion (`set.add`); Python set iteration order is
  unspecified, and the embedding iterates in insertion order.  Every quantity
  computed from the iteration (set contents, emptiness, existence of a
  termination state, raised-or-not) is order-independent.

* `curr_sym == curr_char` on one-character strings is `decide (sym = c)`;
  `str.isascii()` on one character is `c.toNat < 128`; `!=` between `State`
  objects is identity, i.e. inequality of allocation indices, and
  `next_state != None` is always true.
-/

namespace RegexPy

/-- Python exception kinds that the source can raise, plus the one model
artifact `fuelExhausted` (see the module docstring). -/
inductive PyErr where
  | attributeError
  | recursionError
  | notImplementedError
  | fuelExhausted
deriving DecidableEq, Repr

/-- The closed set of node kinds: `StartState`, `TerminationState`, `DotState`,
`AsciiState(sym)`, `StarState(checking_state)`, `PlusState(checking_state)`.
The `checking` field is the allocation index of the wrapped node; `none`
models `checking_state = None` (produced by `__init_next_state` for the
tokens `*` and `+` themselves). -/
inductive Kind where
  | start
  | termination
  | dot
  | ascii (sym : Char)
  | star (checking : Option Nat)
  | plus (checking : Option Nat)
deriving DecidableEq, Repr

/-- The module-level state of `regex.py`: the kinds of all allocated node
objects (indexed by allocation order), and the six class-level shared
`next_states` lists, one per `State` subclass. -/
structure BuildSt where
  kinds : List Kind
  startN : List Nat
  termN : List Nat
  dotN : List Nat
  asciiN : List Nat
  starN : List Nat
  plusN : List Nat
deriving DecidableEq, Repr

/-- Number of nodes allocated so far. -/
def numNodes (st : BuildSt) : Nat := st.kinds.length

/-- The kind of node `i`.  The default is irrelevant: every index produced by
the builder is in range. -/
def kindOf (st : BuildSt) (i : Nat) : Kind := st.kinds.getD i Kind.termination

/-- Allocate a node of kind `k`, returning the new state and the node's index. -/
def alloc (st : BuildSt) (k : Kind) : BuildSt × Nat :=
  ({ st with kinds := st.kinds ++ [k] }, st.kinds.length)

/-- `node_i.next_states`: the class-level shared list of the class of node `i`. -/
def nextsOf (st : BuildSt) (i : Nat) : List Nat :=
  match kindOf st i with
  | Kind.start => st.startN
  | Kind.termination => st.termN
  | Kind.dot => st.dotN
  | Kind.ascii _ => st.asciiN
  | Kind.star _ => st.starN
  | Kind.plus _ => st.plusN

/-- `node_src.next_states.append(node_tgt)`: appends to the class-level shared
list of `src`'s class. -/
def appendNext (st : BuildSt) (src tgt : Nat) : BuildSt :=
  match kindOf st src with
  | Kind.start => { st with startN := st.startN ++ [tgt] }
  | Kind.termination => { st with termN := st.termN ++ [tgt] }
  | Kind.dot => { st with dotN := st.dotN ++ [tgt] }
  | Kind.ascii _ => { st with asciiN := st.asciiN ++ [tgt] }
  | Kind.star _ => { st with starN := st.starN ++ [tgt] }
  | Kind.plus _ => { st with plusN := st.plusN ++ [tgt] }

/-- The module state of a freshly imported `regex.py`: no nodes, all six
class-level `next_states` lists empty. -/
def initSt : BuildSt := ⟨[], [], [], [], [], [], []⟩

/-- `RegexFSM.__init_next_state`: build the node for one token.  The source
checks, in order: `"."`, `"*"`, `"+"`, `next_token.isascii()`, else
`raise AttributeError()`. -/
def init_next_state (st : BuildSt) (tok : Char) : Except PyErr (BuildSt × Nat) :=
  if tok = '.' then .ok (alloc st Kind.dot)
  else if tok = '*' then .ok (alloc st (Kind.star none))
  else if tok = '+' then .ok (alloc st (Kind.plus none))
  else if tok.toNat < 128 then .ok (alloc st (Kind.ascii tok))
  else .error PyErr.attributeError

/-- The `while index < len(regex_expr)` loop of `RegexFSM.__init__`:
look ahead one character for `*` (checked first) or `+`, wire the three edges
of a quantifier group or the single edge of a plain token, and advance the
cursor.  `cur` is `current_state`. -/
def buildLoop : BuildSt → Nat → List Char → Except PyErr (BuildSt × Nat)
  | st, cur, [] => .ok (st, cur)
  | st, cur, tok :: [] =>
    match init_next_state st tok with
    | .error e => .error e
    | .ok (st1, nid) => buildLoop (appendNext st1 cur nid) nid []
  | st, cur, tok :: q :: rest =>
    if q = '*' then
      match init_next_state st tok with
      | .error e => .error e
      | .ok (st1, ch) =>
        let sid := numNodes st1
        let st2 := (alloc st1 (Kind.star (some ch))).1
        buildLoop (appendNext (appendNext (appendNext st2 cur sid) sid ch) ch sid) sid rest
    else if q = '+' then
      match init_next_state st tok with
      | .error e => .error e
      | .ok (st1, ch) =>
        let pid := numNodes st1
        let st2 := (alloc st1 (Kind.plus (some ch))).1
        buildLoop (appendNext (appendNext (appendNext st2 cur ch) ch pid) pid ch) pid rest
    else
      match init_next_state st tok with
      | .error e => .error e
      | .ok (st1, nid) => buildLoop (appendNext st1 cur nid) nid (q :: rest)

/-- `RegexFSM.__init__`: allocate the `StartState` head, run the build loop,
then allocate the `TerminationState` and append the final edge.  Returns the
new module state and the head node's index. -/
def RegexFSM_init (st : BuildSt) (regex : String) : Except PyErr (BuildSt × Nat) :=
  let head := numNodes st
  let st1 := (alloc st Kind.start).1
  match buildLoop st1 head regex.toList with
  | .error e => .error e
  | .ok (st2, cur) =>
    let tid := numNodes st2
    let st3 := (alloc st2 Kind.termination).1
    .ok (appendNext st3 cur tid, head)

/-- Fuel for `checkSelf`, standing in for the Python recursion limit; any
value of at least one gives the source behavior on every state reachable in
the claims below (their `check_self` bodies are non-recursive). -/
def selfFuel (st : BuildSt) : Nat := numNodes st + 2

/-- `state.check_self(c)` for node `i`.  `StartState.check_self` returns the
abstract method's `None`, which is falsy everywhere it is used, so it is
modelled as `false`.  `StarState.check_self` iterates the class-shared
`next_states` list, returning at the first truthy recursive `check_self`
(`foldr` reproduces the early return and the early raise). -/
def checkSelf (st : BuildSt) : Nat → Nat → Char → Except PyErr Bool
  | 0, _, _ => .error PyErr.recursionError
  | fuel + 1, i, c =>
    match kindOf st i with
    | Kind.start => .ok false
    | Kind.termination => .ok false
    | Kind.dot => .ok true
    | Kind.ascii sym => .ok (decide (sym = c))
    | Kind.plus _ => .ok false
    | Kind.star _ =>
      (nextsOf st i).foldr
        (fun j acc =>
          match checkSelf st fuel j c with
          | .error e => .error e
          | .ok true => .ok true
          | .ok false => acc)
        (.ok false)

/-- `State.check_next`: dead code in the source (never called by
`check_string`); returns the first next state whose `check_self` is truthy,
else raises `NotImplementedError("rejected string")`. -/
def check_next (st : BuildSt) (i : Nat) (c : Char) : Except PyErr Nat :=
  (nextsOf st i).foldr
    (fun j acc =>
      match checkSelf st (selfFuel st) j c with
      | .error e => .error e
      | .ok true => .ok j
      | .ok false => acc)
    (.error PyErr.notImplementedError)

/-- The epsilon successors one worklist pop of `get_closure` considers for
node `i`: for `StarState`/`PlusState`, the shared `next_states` list minus the
wrapped `checking_state` (identity comparison; `!= None` is always true); for
`StartState`, the whole list; nothing for the other kinds. -/
def epsTargets (st : BuildSt) (i : Nat) : List Nat :=
  match kindOf st i with
  | Kind.star ch => (nextsOf st i).filter (fun n => decide (some n ≠ ch))
  | Kind.plus ch => (nextsOf st i).filter (fun n => decide (some n ≠ ch))
  | Kind.start => nextsOf st i
  | _ => []

/-- `next_active_states.add(s)` for each element of a list: append those not
already present. -/
def addUnique (acc : List Nat) : List Nat → List Nat
  | [] => acc
  | n :: ns => if n ∈ acc then addUnique acc ns else addUnique (acc ++ [n]) ns

/-- The inner `for next_state in ...` loop of `get_closure`: each target not
yet in `closing` is added to `closing` and appended to the worklist. -/
def addNews (closing queue : List Nat) : List Nat → List Nat × List Nat
  | [] => (closing, queue)
  | n :: ns =>
    if n ∈ closing then addNews closing queue ns
    else addNews (closing ++ [n]) (queue ++ [n]) ns

/-- The `while queue:` loop of `get_closure`, with explicit fuel (the source
loop always terminates on built automata; the theorem for C9 proves the fuel
supplied by `get_closure` is never exhausted). -/
def closureLoop (st : BuildSt) : Nat → List Nat → List Nat → Option (List Nat)
  | 0, _, _ => none
  | _ + 1, closing, [] => some closing
  | fuel + 1, closing, cur :: rest =>
    closureLoop st fuel
      (addNews closing rest (epsTargets st cur)).1
      (addNews closing rest (epsTargets st cur)).2

/-- `RegexFSM.get_closure`: breadth-first worklist seeded with the input set
(`closing = set(states)`, `queue = list(states)`); callers always pass
duplicate-free lists. -/
def get_closure (st : BuildSt) (states : List Nat) : Option (List Nat) :=
  closureLoop st (numNodes st + states.length + 1) states states

/-- The inner `for active_state in current_active_states` loop of
`check_string`, building the raw next set for character `c`.
`StarState`/`PlusState` test `checking_state.check_self(c)` (raising
`AttributeError` when `checking_state` is `None`) and on success add the
wrapped node's own `next_states`; `AsciiState`/`DotState` test themselves and
add their `next_states`; `StartState`/`TerminationState` contribute nothing. -/
def rawNext (st : BuildSt) (c : Char) : List Nat → List Nat → Except PyErr (List Nat)
  | [], acc => .ok acc
  | i :: rest, acc =>
    match kindOf st i with
    | Kind.star ch =>
      match ch with
      | none => .error PyErr.attributeError
      | some k =>
        match checkSelf st (selfFuel st) k c with
        | .error e => .error e
        | .ok true => rawNext st c rest (addUnique acc (nextsOf st k))
        | .ok false => rawNext st c rest acc
    | Kind.plus ch =>
      match ch with
      | none => .error PyErr.attributeError
      | some k =>
        match checkSelf st (selfFuel st) k c with
        | .error e => .error e
        | .ok true => rawNext st c rest (addUnique acc (nextsOf st k))
        | .ok false => rawNext st c rest acc
    | Kind.ascii sym =>
      if sym = c then rawNext st c rest (addUnique acc (nextsOf st i))
      else rawNext st c rest acc
    | Kind.dot => rawNext st c rest (addUnique acc (nextsOf st i))
    | _ => rawNext st c rest acc

/-- The `for char in text_to_check` loop of `check_string`, carrying the
active set: build the raw next set, reject immediately if it is empty,
otherwise take its closure and continue; at the end accept iff a
`TerminationState` is in the active set. -/
def charLoop (st : BuildSt) : List Nat → List Char → Except PyErr Bool
  | active, [] => .ok (decide (∃ i ∈ active, kindOf st i = Kind.termination))
  | active, c :: rest =>
    match rawNext st c active [] with
    | .error e => .error e
    | .ok raw =>
      if raw = [] then .ok false
      else
        match get_closure st raw with
        | none => .error PyErr.fuelExhausted
        | some nxt => charLoop st nxt rest

/-- `RegexFSM.check_string`: seed the active set with the closure of the head
(`curr_state`) and run the character loop. -/
def check_string (st : BuildSt) (head : Nat) (text : String) : Except PyErr Bool :=
  match get_closure st [head] with
  | none => .error PyErr.fuelExhausted
  | some a0 => charLoop st a0 text.toList

/-- Build the automaton for `p` in a fresh module state and match `s`:
`RegexFSM(p).check_string(s)` in a fresh interpreter. -/
def matchesRe (p s : String) : Except PyErr Bool :=
  match RegexFSM_init initSt p with
  | .error e => .error e
  | .ok (st, head) => check_string st head s

/-- One `check_string` call as a module-state transition.  `check_string` in
the source only reads the graph: its statements mutate nothing but the local
variables `current_active_states` and `next_active_states` (and `get_closure`
mutates only its locals `closing` and `queue`), so the state-passing
translation returns the module state unchanged. -/
def check_string_run (st : BuildSt) (head : Nat) (text : String) :
    Except PyErr Bool × BuildSt :=
  (check_string st head text, st)

/-- Run a sequence of `check_string` calls (head node, input string) in order,
threading the module state through, and collect the results. -/
def runMatches (st : BuildSt) : List (Nat × String) → List (Except PyErr Bool) × BuildSt
  | [] => ([], st)
  | q :: rest =>
    ((check_string_run st q.1 q.2).1 ::
        (runMatches (check_string_run st q.1 q.2).2 rest).1,
      (runMatches (check_string_run st q.1 q.2).2 rest).2)

/-- Patterns in which every `*` and `+` occurs in quantifier position (i.e. is
consumed by the builder's look-ahead), mirroring the case structure of
`buildLoop`. -/
def wfPattern : List Char → Bool
  | [] => true
  | tok :: [] => decide (tok ≠ '*') && decide (tok ≠ '+')
  | tok :: q :: rest =>
    if q = '*' then decide (tok ≠ '*') && decide (tok ≠ '+') && wfPattern rest
    else if q = '+' then decide (tok ≠ '*') && decide (tok ≠ '+') && wfPattern rest
    else decide (tok ≠ '*') && decide (tok ≠ '+') && wfPattern (q :: rest)

/-- All six class-level edge lists reference only allocated nodes. -/
def WfBounds (st : BuildSt) : Prop :=
  (∀ n ∈ st.startN, n < numNodes st) ∧ (∀ n ∈ st.termN, n < numNodes st) ∧
  (∀ n ∈ st.dotN, n < numNodes st) ∧ (∀ n ∈ st.asciiN, n < numNodes st) ∧
  (∀ n ∈ st.starN, n < numNodes st) ∧ (∀ n ∈ st.plusN, n < numNodes st)

/-- Kinds whose `check_self` consumes a character and cannot fail. -/
def isChar : Kind → Bool
  | Kind.dot => true
  | Kind.ascii _ => true
  | _ => false

/-- Every quantifier wrapper wraps an actual `DotState` or `AsciiState`
(no `checking_state = None`, no nested quantifier). -/
def WfChecking (st : BuildSt) : Prop :=
  ∀ i ch, (kindOf st i = Kind.star ch ∨ kindOf st i = Kind.plus ch) →
    ∃ k, ch = some k ∧ isChar (kindOf st k) = true

/-- Every member of `c` that is off the worklist already has all its epsilon
targets in `c` (the loop invariant of `get_closure`). -/
def ClosedOff (st : BuildSt) (c q : List Nat) : Prop :=
  ∀ i ∈ c, i ∉ q → ∀ n ∈ epsTargets st i, n ∈ c

end RegexPy

namespace RegexPy

/-- The module state after `RegexFSM("")` from a fresh interpreter. -/
def emptyMachine : BuildSt :=
  ⟨[Kind.start, Kind.termination], [1], [], [], [], [], []⟩

/-- The module state after `RegexFSM(".+")` from a fresh interpreter. -/
def plusMachineDot : BuildSt :=
  ⟨[Kind.start, Kind.dot, Kind.plus (some 1), Kind.termination],
    [1], [], [2], [], [], [1, 3]⟩

/-- The module state after `RegexFSM(x + "+")` from a fresh interpreter, for a
non-quantifier ASCII literal `x` other than `.`. -/
def plusMachineAscii (x : Char) : BuildSt :=
  ⟨[Kind.start, Kind.ascii x, Kind.plus (some 1), Kind.termination],
    [1], [], [], [2], [], [1, 3]⟩

/-- The module state after `RegexFSM("a*")` from a fresh interpreter. -/
def starMachineA : BuildSt :=
  ⟨[Kind.start, Kind.ascii 'a', Kind.star (some 1), Kind.termination],
    [2], [], [], [2], [1, 3], []⟩

/-- The module state after `RegexFSM("a")` from a fresh interpreter. -/
def singleAMachine : BuildSt :=
  ⟨[Kind.start, Kind.ascii 'a', Kind.termination], [1], [], [], [2], [], []⟩

/-- The module state after `RegexFSM("a")` followed by `RegexFSM("b")`: the
second construction has appended its edges to the class-level lists the first
automaton's nodes read (`startN`, `asciiN`). -/
def twoBuildMachine : BuildSt :=
  ⟨[Kind.start, Kind.ascii 'a', Kind.termination,
      Kind.start, Kind.ascii 'b', Kind.termination],
    [1, 4], [], [], [2, 5], [], []⟩

end RegexPy


namespace RegexPy

/-- C1 (code evidence): on the automaton built from `"a*4.+hi"`, the code
returns `true` for `"aaaaaa4uhi"`, `true` for `"4uhi"`, `false` for `"meow"`
— and `true` for `"a44hi"`, where the claim expects `false`: the class-shared
`next_states` lists let every `AsciiState` (in particular the one for `h`)
reach the termination node directly. -/
theorem scenario_pattern_eval :
    matchesRe "a*4.+hi" "aaaaaa4uhi" = .ok true ∧
    matchesRe "a*4.+hi" "4uhi" = .ok true ∧
    matchesRe "a*4.+hi" "meow" = .ok false ∧
    matchesRe "a*4.+hi" "a44hi" = .ok true :=
  ⟨rfl, rfl, rfl, rfl⟩

/-- C2 (code evidence): the quantifier-free pattern `"ab"` accepts the
length-1 input `"a"`, because the two `AsciiState`s share one `next_states`
list, which after construction contains the termination node. -/
theorem literal_pattern_prefix_accepted :
    matchesRe "ab" "a" = .ok true ∧ matchesRe "ab" "ab" = .ok true :=
  ⟨rfl, rfl⟩

/-- C3 counterexample: `RegexFSM("*")` is constructed without error, yet
`check_string("x")` raises `AttributeError` — the star node's
`checking_state` is `None`. -/
theorem star_pattern_match_raises :
    (∃ a, RegexFSM_init initSt "*" = .ok a) ∧
    matchesRe "*" "x" = .error PyErr.attributeError :=
  ⟨⟨(⟨[Kind.start, Kind.star none, Kind.termination],
      [1], [], [], [], [2], []⟩, 0), rfl⟩, rfl⟩

/-- C4 (code evidence): the automaton for `"a"` rejects `"b"`, but after a
second automaton for `"b"` is constructed, the same head node accepts `"b"`:
construction appends to the class-level `next_states` lists that the first
automaton's nodes read. -/
theorem second_build_mutates_first :
    RegexFSM_init initSt "a" = .ok (singleAMachine, 0) ∧
    check_string singleAMachine 0 "b" = .ok false ∧
    RegexFSM_init singleAMachine "b" = .ok (twoBuildMachine, 3) ∧
    check_string twoBuildMachine 0 "b" = .ok true :=
  ⟨rfl, rfl, rfl, rfl⟩

/-- C5 counterexample: `"["` is an ASCII character, so `RegexFSM("[")` is
constructed without error (as an ordinary literal) rather than failing. -/
theorem bracket_pattern_build_succeeds :
    (∃ a, RegexFSM_init initSt "[" = .ok a) ∧
    matchesRe "[" "[" = .ok true :=
  ⟨⟨(⟨[Kind.start, Kind.ascii '[', Kind.termination],
      [1], [], [], [2], [], []⟩, 0), rfl⟩, rfl⟩

/-- C6: a `check_string` call leaves the module state unchanged, so in any
sequence of interleaved `check_string` calls each call's result is exactly
`check_string` of the original state at its own arguments — repeated calls
with the same input agree, and calls with other inputs do not interfere. -/
theorem matches_idempotent_noninterfering :
    (∀ (st : BuildSt) (ops : List (Nat × String)), (runMatches st ops).2 = st) ∧
    (∀ (st : BuildSt) (pre : List (Nat × String)) (h : Nat) (s : String)
        (post : List (Nat × String)),
      (runMatches st (pre ++ (h, s) :: post)).1.get? pre.length =
        some (check_string st h s)) := by
  constructor
  · intro st ops
    induction ops with
    | nil => rfl
    | cons q rest ih => simpa [runMatches, check_string_run] using ih
  · intro st pre h s post
    induction pre with
    | nil => simp [runMatches, check_string_run]
    | cons q pre ih => simpa [runMatches, check_string_run] using ih

/-- C8: the automaton built from the empty pattern accepts the empty string
and rejects every non-empty string. -/
theorem empty_pattern_spec :
    RegexFSM_init initSt "" = .ok (emptyMachine, 0) ∧
    check_string emptyMachine 0 "" = .ok true ∧
    ∀ s : String, s ≠ "" → check_string emptyMachine 0 s = .ok false := by
  refine ⟨rfl, rfl, ?_⟩
  intro s hs
  obtain ⟨data⟩ := s
  cases data with
  | nil => exact absurd rfl hs
  | cons c cs => rfl

/-- C8 witness: the empty-pattern automaton at the concrete input `"x"`. -/
theorem empty_pattern_spec_witness :
    check_string emptyMachine 0 "x" = .ok false :=
  empty_pattern_spec.2.2 "x" (by decide)

end RegexPy

namespace RegexPy

theorem forall_append_singleton {l : List Nat} {t N : Nat}
    (hl : ∀ n ∈ l, n < N) (ht : t < N) : ∀ n ∈ l ++ [t], n < N := by
  intro n hn
  rcases List.mem_append.mp hn with h | h
  · exact hl n h
  · simp only [List.mem_singleton] at h
    omega

theorem nextsOf_bounded (st : BuildSt) (hB : WfBounds st) (i : Nat) :
    ∀ n ∈ nextsOf st i, n < numNodes st := by
  obtain ⟨h1, h2, h3, h4, h5, h6⟩ := hB
  intro n hn
  cases hk : kindOf st i <;> simp only [nextsOf, hk] at hn
  · exact h1 n hn
  · exact h2 n hn
  · exact h3 n hn
  · exact h4 n hn
  · exact h5 n hn
  · exact h6 n hn

theorem epsTargets_sub_nexts (st : BuildSt) (i : Nat) :
    ∀ n ∈ epsTargets st i, n ∈ nextsOf st i := by
  intro n hn
  cases hk : kindOf st i <;> simp only [epsTargets, hk] at hn
  case start => exact hn
  case termination => exact absurd hn (List.not_mem_nil n)
  case dot => exact absurd hn (List.not_mem_nil n)
  case ascii => exact absurd hn (List.not_mem_nil n)
  case star => exact (List.mem_filter.mp hn).1
  case plus => exact (List.mem_filter.mp hn).1

theorem epsTargets_bounded (st : BuildSt) (hB : WfBounds st) (i : Nat) :
    ∀ n ∈ epsTargets st i, n < numNodes st :=
  fun n hn => nextsOf_bounded st hB i n (epsTargets_sub_nexts st i n hn)

theorem addNews_closing_sub (ns : List Nat) :
    ∀ c q, ∀ m ∈ c, m ∈ (addNews c q ns).1 := by
  induction ns with
  | nil => intro c q m hm; simpa [addNews] using hm
  | cons n ns ih =>
    intro c q m hm
    by_cases h : n ∈ c
    · simpa only [addNews, if_pos h] using ih c q m hm
    · simp only [addNews, if_neg h]
      exact ih _ _ m (List.mem_append_left _ hm)

theorem addNews_mem_targets (ns : List Nat) :
    ∀ c q, ∀ n ∈ ns, n ∈ (addNews c q ns).1 := by
  induction ns with
  | nil => intro c q n hn; exact absurd hn (List.not_mem_nil n)
  | cons m ns ih =>
    intro c q n hn
    rcases List.mem_cons.mp hn with rfl | hn
    · by_cases h : n ∈ c
      · simpa only [addNews, if_pos h] using addNews_closing_sub ns c q n h
      · simp only [addNews, if_neg h]
        exact addNews_closing_sub ns _ _ n (by simp)
    · by_cases h : m ∈ c
      · simpa only [addNews, if_pos h] using ih c q n hn
      · simp only [addNews, if_neg h]
        exact ih _ _ n hn

theorem addNews_queue_sub (ns : List Nat) :
    ∀ c q, ∀ m ∈ q, m ∈ (addNews c q ns).2 := by
  induction ns with
  | nil => intro c q m hm; simpa [addNews] using hm
  | cons n ns ih =>
    intro c q m hm
    by_cases h : n ∈ c
    · simpa only [addNews, if_pos h] using ih c q m hm
    · simp only [addNews, if_neg h]
      exact ih _ _ m (List.mem_append_left _ hm)

theorem addNews_new_queued (ns : List Nat) :
    ∀ c q, ∀ m ∈ (addNews c q ns).1, m ∈ c ∨ m ∈ (addNews c q ns).2 := by
  induction ns with
  | nil => intro c q m hm; exact Or.inl (by simpa [addNews] using hm)
  | cons n ns ih =>
    intro c q m hm
    by_cases h : n ∈ c
    · simp only [addNews, if_pos h] at hm ⊢
      exact ih c q m hm
    · simp only [addNews, if_neg h] at hm ⊢
      rcases ih _ _ m hm with hc | hq
      · rcases List.mem_append.mp hc with hc | hc
        · exact Or.inl hc
        · simp only [List.mem_singleton] at hc
          subst hc
          exact Or.inr (addNews_queue_sub ns _ _ m (by simp))
      · exact Or.inr hq

theorem addNews_queue_closing (ns : List Nat) :
    ∀ c q, (∀ m ∈ q, m ∈ c) → ∀ m ∈ (addNews c q ns).2, m ∈ (addNews c q ns).1 := by
  induction ns with
  | nil => intro c q hqc m hm; simp only [addNews] at hm ⊢; exact hqc m hm
  | cons n ns ih =>
    intro c q hqc m hm
    by_cases h : n ∈ c
    · simp only [addNews, if_pos h] at hm ⊢
      exact ih c q hqc m hm
    · simp only [addNews, if_neg h] at hm ⊢
      refine ih _ _ ?_ m hm
      intro x hx
      rcases List.mem_append.mp hx with hx | hx
      · exact List.mem_append_left _ (hqc x hx)
      · exact List.mem_append_right _ hx

theorem addNews_noop (ns : List Nat) :
    ∀ c q, (∀ n ∈ ns, n ∈ c) → addNews c q ns = (c, q) := by
  induction ns with
  | nil => intro c q _; rfl
  | cons n ns ih =>
    intro c q hns
    have hn : n ∈ c := hns n (by simp)
    simp only [addNews, if_pos hn]
    exact ih c q (fun x hx => hns x (List.mem_cons_of_mem n hx))

theorem addNews_measure (N : Nat) (ns : List Nat) (hns : ∀ n ∈ ns, n < N) :
    ∀ c q,
      (Finset.range N \ (addNews c q ns).1.toFinset).card + (addNews c q ns).2.length =
        (Finset.range N \ c.toFinset).card + q.length := by
  induction ns with
  | nil => intro c q; rfl
  | cons n ns ih =>
    intro c q
    have hn : n < N := hns n (by simp)
    have hns' : ∀ m ∈ ns, m < N := fun m hm => hns m (List.mem_cons_of_mem n hm)
    by_cases h : n ∈ c
    · simp only [addNews, if_pos h]
      exact ih hns' c q
    · simp only [addNews, if_neg h]
      rw [ih hns' _ _]
      have htf : (c ++ [n]).toFinset = insert n c.toFinset := by
        ext x
        simp [or_comm]
      rw [htf]
      have hmem : n ∈ Finset.range N \ c.toFinset := by
        simp only [Finset.mem_sdiff, Finset.mem_range, List.mem_toFinset]
        exact ⟨hn, h⟩
      have hcard : (Finset.range N \ insert n c.toFinset).card =
          (Finset.range N \ c.toFinset).card - 1 := by
        rw [Finset.sdiff_insert, Finset.card_erase_of_mem hmem]
      rw [hcard]
      have hpos : 0 < (Finset.range N \ c.toFinset).card := Finset.card_pos.mpr ⟨n, hmem⟩
      simp only [List.length_append, List.length_cons, List.length_nil]
      omega

theorem closureLoop_spec (st : BuildSt) (hB : WfBounds st) :
    ∀ (fuel : Nat) (c q : List Nat),
      (Finset.range (numNodes st) \ c.toFinset).card + q.length < fuel →
      (∀ m ∈ q, m ∈ c) → ClosedOff st c q →
      ∃ r, closureLoop st fuel c q = some r ∧ (∀ m ∈ c, m ∈ r) ∧
        (∀ i ∈ r, ∀ n ∈ epsTargets st i, n ∈ r) := by
  intro fuel
  induction fuel with
  | zero => intro c q hm _ _; omega
  | succ fuel ih =>
    intro c q hm hqc hcl
    match q with
    | [] =>
      refine ⟨c, rfl, fun m hm => hm, ?_⟩
      intro i hi n hn
      exact hcl i hi (List.not_mem_nil i) n hn
    | cur :: rest =>
      have hbnd := epsTargets_bounded st hB cur
      have hmeas := addNews_measure (numNodes st) (epsTargets st cur) hbnd c rest
      have hrest : ∀ m ∈ rest, m ∈ c := fun m hmr => hqc m (List.mem_cons_of_mem cur hmr)
      have hstep :
          (Finset.range (numNodes st) \
              (addNews c rest (epsTargets st cur)).1.toFinset).card +
            (addNews c rest (epsTargets st cur)).2.length < fuel := by
        rw [hmeas]
        simp only [List.length_cons] at hm
        omega
      have hqc2 := addNews_queue_closing (epsTargets st cur) c rest hrest
      have hcl2 : ClosedOff st (addNews c rest (epsTargets st cur)).1
          (addNews c rest (epsTargets st cur)).2 := by
        intro i hi hni n hn
        rcases addNews_new_queued (epsTargets st cur) c rest i hi with hic | hiq
        · by_cases hcur : i = cur
          · subst hcur
            exact addNews_mem_targets (epsTargets st i) c rest n hn
          · have hir : i ∉ rest := fun hr => hni (addNews_queue_sub _ _ _ i hr)
            have : i ∉ cur :: rest := by
              simp only [List.mem_cons]
              rintro (rfl | hr)
              · exact hcur rfl
              · exact hir hr
            exact addNews_closing_sub _ _ _ n (hcl i hic this n hn)
        · exact absurd hiq hni
      obtain ⟨r, hr, hsub, hclr⟩ := ih _ _ hstep hqc2 hcl2
      refine ⟨r, ?_, ?_, hclr⟩
      · simpa only [closureLoop] using hr
      · exact fun m hmc => hsub m (addNews_closing_sub _ _ _ m hmc)

theorem closureLoop_stable (st : BuildSt) :
    ∀ (fuel : Nat) (q c : List Nat), q.length < fuel → (∀ m ∈ q, m ∈ c) →
      (∀ i ∈ c, ∀ n ∈ epsTargets st i, n ∈ c) →
      closureLoop st fuel c q = some c := by
  intro fuel
  induction fuel with
  | zero => intro q c h _ _; omega
  | succ fuel ih =>
    intro q c hlen hqc hcl
    match q with
    | [] => rfl
    | cur :: rest =>
      have hnoop : addNews c rest (epsTargets st cur) = (c, rest) :=
        addNews_noop _ c rest (hcl cur (hqc cur (by simp)))
      simp only [closureLoop, hnoop]
      refine ih rest c ?_ (fun m hm => hqc m (List.mem_cons_of_mem cur hm)) hcl
      simp only [List.length_cons] at hlen
      omega

theorem get_closure_spec (st : BuildSt) (hB : WfBounds st) (S : List Nat) :
    ∃ r, get_closure st S = some r ∧ (∀ m ∈ S, m ∈ r) ∧
      (∀ i ∈ r, ∀ n ∈ epsTargets st i, n ∈ r) := by
  refine closureLoop_spec st hB _ S S ?_ (fun m hm => hm) ?_
  · have : (Finset.range (numNodes st) \ S.toFinset).card ≤ numNodes st := by
      calc (Finset.range (numNodes st) \ S.toFinset).card
          ≤ (Finset.range (numNodes st)).card := Finset.card_le_card (Finset.sdiff_subset)
        _ = numNodes st := Finset.card_range _
    omega
  · intro i hi hni
    exact absurd hi hni

theorem get_closure_stable (st : BuildSt) (r : List Nat)
    (hcl : ∀ i ∈ r, ∀ n ∈ epsTargets st i, n ∈ r) :
    get_closure st r = some r := by
  refine closureLoop_stable st _ r r ?_ (fun m hm => hm) hcl
  omega

end RegexPy

namespace RegexPy

theorem numNodes_appendNext (st : BuildSt) (src tgt : Nat) :
    numNodes (appendNext st src tgt) = numNodes st := by
  cases hk : kindOf st src <;> simp only [appendNext, hk] <;> rfl

theorem numNodes_alloc (st : BuildSt) (k : Kind) :
    numNodes (alloc st k).1 = numNodes st + 1 := by
  simp [alloc, numNodes]

theorem kinds_appendNext (st : BuildSt) (src tgt : Nat) :
    (appendNext st src tgt).kinds = st.kinds := by
  cases hk : kindOf st src <;> simp only [appendNext, hk]

theorem wfBounds_initSt : WfBounds initSt := by
  refine ⟨?_, ?_, ?_, ?_, ?_, ?_⟩ <;> intro n hn <;> exact absurd hn (List.not_mem_nil n)

theorem wfBounds_alloc (st : BuildSt) (k : Kind) (hB : WfBounds st) :
    WfBounds (alloc st k).1 := by
  obtain ⟨h1, h2, h3, h4, h5, h6⟩ := hB
  have hle : numNodes st < numNodes (alloc st k).1 := by
    rw [numNodes_alloc]
    omega
  exact ⟨fun n hn => lt_trans (h1 n hn) hle, fun n hn => lt_trans (h2 n hn) hle,
    fun n hn => lt_trans (h3 n hn) hle, fun n hn => lt_trans (h4 n hn) hle,
    fun n hn => lt_trans (h5 n hn) hle, fun n hn => lt_trans (h6 n hn) hle⟩

theorem wfBounds_appendNext (st : BuildSt) (src tgt : Nat) (hB : WfBounds st)
    (ht : tgt < numNodes st) : WfBounds (appendNext st src tgt) := by
  obtain ⟨h1, h2, h3, h4, h5, h6⟩ := hB
  have hN := numNodes_appendNext st src tgt
  cases hk : kindOf st src <;> simp only [appendNext, hk]
  · exact ⟨forall_append_singleton h1 ht, h2, h3, h4, h5, h6⟩
  · exact ⟨h1, forall_append_singleton h2 ht, h3, h4, h5, h6⟩
  · exact ⟨h1, h2, forall_append_singleton h3 ht, h4, h5, h6⟩
  · exact ⟨h1, h2, h3, forall_append_singleton h4 ht, h5, h6⟩
  · exact ⟨h1, h2, h3, h4, forall_append_singleton h5 ht, h6⟩
  · exact ⟨h1, h2, h3, h4, h5, forall_append_singleton h6 ht⟩

end RegexPy

namespace RegexPy

theorem init_next_state_ok (st : BuildSt) (tok : Char) (st' : BuildSt) (i : Nat)
    (h : init_next_state st tok = .ok (st', i)) :
    ∃ K, st' = (alloc st K).1 ∧ i = numNodes st := by
  unfold init_next_state at h
  split_ifs at h with h1 h2 h3 h4
  · injection h with h
    exact ⟨Kind.dot, (congrArg Prod.fst h).symm, (congrArg Prod.snd h).symm⟩
  · injection h with h
    exact ⟨Kind.star none, (congrArg Prod.fst h).symm, (congrArg Prod.snd h).symm⟩
  · injection h with h
    exact ⟨Kind.plus none, (congrArg Prod.fst h).symm, (congrArg Prod.snd h).symm⟩
  · injection h with h
    exact ⟨Kind.ascii tok, (congrArg Prod.fst h).symm, (congrArg Prod.snd h).symm⟩

theorem buildLoop_wf :
    ∀ (rx : List Char) (st : BuildSt) (cur : Nat) (st' : BuildSt) (cur' : Nat),
      WfBounds st → cur < numNodes st → buildLoop st cur rx = .ok (st', cur') →
      WfBounds st' ∧ cur' < numNodes st'
  | [] => by
    intro st cur st' cur' hB hc h
    simp only [buildLoop, Except.ok.injEq, Prod.mk.injEq] at h
    obtain ⟨rfl, rfl⟩ := h
    exact ⟨hB, hc⟩
  | tok :: [] => by
    intro st cur st' cur' hB hc h
    simp only [buildLoop] at h
    rcases hi : init_next_state st tok with e | ⟨st1, nid⟩
    · rw [hi] at h
      exact absurd h (by simp)
    · rw [hi] at h
      dsimp only at h
      obtain ⟨K, rfl, rfl⟩ := init_next_state_ok _ _ _ _ hi
      have hB1 : WfBounds (alloc st K).1 := wfBounds_alloc _ _ hB
      have hn1 : numNodes st < numNodes (alloc st K).1 := by
        rw [numNodes_alloc]
        omega
      have hB2 := wfBounds_appendNext _ cur _ hB1 hn1
      refine buildLoop_wf [] _ _ _ _ hB2 ?_ h
      rw [numNodes_appendNext]
      exact hn1
  | tok :: q :: rest => by
    intro st cur st' cur' hB hc h
    simp only [buildLoop] at h
    by_cases hq1 : q = '*'
    · rw [if_pos hq1] at h
      rcases hi : init_next_state st tok with e | ⟨st1, ch⟩
      · rw [hi] at h
        exact absurd h (by simp)
      · rw [hi] at h
        dsimp only at h
        obtain ⟨K, rfl, rfl⟩ := init_next_state_ok _ _ _ _ hi
        have hB1 : WfBounds (alloc st K).1 := wfBounds_alloc _ _ hB
        have hB2 : WfBounds (alloc (alloc st K).1 (Kind.star (some (numNodes st)))).1 :=
          wfBounds_alloc _ _ hB1
        have hn2 : numNodes (alloc (alloc st K).1 (Kind.star (some (numNodes st)))).1 =
            numNodes st + 2 := by
          rw [numNodes_alloc, numNodes_alloc]
        have hs : numNodes (alloc st K).1 = numNodes st + 1 := numNodes_alloc _ _
        have hB3 := wfBounds_appendNext _ cur (numNodes (alloc st K).1) hB2 (by omega)
        have hB4 := wfBounds_appendNext _ (numNodes (alloc st K).1) (numNodes st) hB3
          (by rw [numNodes_appendNext]; omega)
        have hB5 := wfBounds_appendNext _ (numNodes st) (numNodes (alloc st K).1) hB4
          (by rw [numNodes_appendNext, numNodes_appendNext]; omega)
        refine buildLoop_wf rest _ _ _ _ hB5 ?_ h
        rw [numNodes_appendNext, numNodes_appendNext, numNodes_appendNext]
        omega
    · rw [if_neg hq1] at h
      by_cases hq2 : q = '+'
      · rw [if_pos hq2] at h
        rcases hi : init_next_state st tok with e | ⟨st1, ch⟩
        · rw [hi] at h
          exact absurd h (by simp)
        · rw [hi] at h
          dsimp only at h
          obtain ⟨K, rfl, rfl⟩ := init_next_state_ok _ _ _ _ hi
          have hB1 : WfBounds (alloc st K).1 := wfBounds_alloc _ _ hB
          have hB2 : WfBounds (alloc (alloc st K).1 (Kind.plus (some (numNodes st)))).1 :=
            wfBounds_alloc _ _ hB1
          have hs : numNodes (alloc st K).1 = numNodes st + 1 := numNodes_alloc _ _
          have hn2 : numNodes (alloc (alloc st K).1 (Kind.plus (some (numNodes st)))).1 =
              numNodes st + 2 := by
            rw [numNodes_alloc, numNodes_alloc]
          have hB3 := wfBounds_appendNext _ cur (numNodes st) hB2 (by omega)
          have hB4 := wfBounds_appendNext _ (numNodes st) (numNodes (alloc st K).1) hB3
            (by rw [numNodes_appendNext]; omega)
          have hB5 := wfBounds_appendNext _ (numNodes (alloc st K).1) (numNodes st) hB4
            (by rw [numNodes_appendNext, numNodes_appendNext]; omega)
          refine buildLoop_wf rest _ _ _ _ hB5 ?_ h
          rw [numNodes_appendNext, numNodes_appendNext, numNodes_appendNext]
          omega
      · rw [if_neg hq2] at h
        rcases hi : init_next_state st tok with e | ⟨st1, nid⟩
        · rw [hi] at h
          exact absurd h (by simp)
        · rw [hi] at h
          dsimp only at h
          obtain ⟨K, rfl, rfl⟩ := init_next_state_ok _ _ _ _ hi
          have hB1 : WfBounds (alloc st K).1 := wfBounds_alloc _ _ hB
          have hn1 : numNodes st < numNodes (alloc st K).1 := by
            rw [numNodes_alloc]
            omega
          have hB2 := wfBounds_appendNext _ cur _ hB1 hn1
          refine buildLoop_wf (q :: rest) _ _ _ _ hB2 ?_ h
          rw [numNodes_appendNext]
          exact hn1

theorem RegexFSM_init_wf (st0 : BuildSt) (p : String) (st : BuildSt) (hd : Nat)
    (hB0 : WfBounds st0) (hok : RegexFSM_init st0 p = .ok (st, hd)) :
    WfBounds st := by
  unfold RegexFSM_init at hok
  dsimp only at hok
  rcases hb : buildLoop (alloc st0 Kind.start).1 (numNodes st0) p.toList with e | ⟨st2, cur⟩
  · rw [hb] at hok
    exact absurd hok (by simp)
  · rw [hb] at hok
    dsimp only at hok
    simp only [Except.ok.injEq, Prod.mk.injEq] at hok
    obtain ⟨rfl, rfl⟩ := hok
    have hB1 : WfBounds (alloc st0 Kind.start).1 := wfBounds_alloc _ _ hB0
    have hc1 : numNodes st0 < numNodes (alloc st0 Kind.start).1 := by
      rw [numNodes_alloc]
      omega
    obtain ⟨hB2, hc2⟩ := buildLoop_wf _ _ _ _ _ hB1 hc1 hb
    have hB3 := wfBounds_alloc st2 Kind.termination hB2
    refine wfBounds_appendNext _ cur _ hB3 ?_
    rw [numNodes_alloc]
    omega

/-- C9: on every automaton returned by `build`, the closure computation
terminates for every input worklist: visited nodes are never re-added
(`addNews` checks membership in `closing`), the graph is finite, and the
worklist empties before the fuel supplied by `get_closure` runs out, even
though quantifier loops make the graph cyclic. -/
theorem get_closure_terminates (p : String) (st : BuildSt) (hd : Nat) (S : List Nat)
    (hok : RegexFSM_init initSt p = .ok (st, hd)) :
    ∃ r, get_closure st S = some r := by
  obtain ⟨r, hr, _, _⟩ :=
    get_closure_spec st (RegexFSM_init_wf initSt p st hd wfBounds_initSt hok) S
  exact ⟨r, hr⟩

/-- C9 witness: the closure computation on the `"a*"` automaton seeded with
the start node. -/
theorem get_closure_terminates_witness :
    ∃ r, get_closure starMachineA [0] = some r :=
  get_closure_terminates "a*" starMachineA 0 [0] rfl

/-- C10: on every automaton returned by `build`, `get_closure` is a closure
operator on node sets: the input set is contained in its closure, and the
closure of the closure is the closure itself. -/
theorem get_closure_closure_operator (p : String) (st : BuildSt) (hd : Nat) (S : List Nat)
    (hok : RegexFSM_init initSt p = .ok (st, hd)) :
    ∃ r, get_closure st S = some r ∧ (∀ n ∈ S, n ∈ r) ∧ get_closure st r = some r := by
  obtain ⟨r, hr, hsub, hcl⟩ :=
    get_closure_spec st (RegexFSM_init_wf initSt p st hd wfBounds_initSt hok) S
  exact ⟨r, hr, hsub, get_closure_stable st r hcl⟩

/-- C10 witness: the closure operator laws on the `"a+"` automaton seeded
with the plus node. -/
theorem get_closure_closure_operator_witness :
    ∃ r, get_closure (plusMachineAscii 'a') [2] = some r ∧ (∀ n ∈ [2], n ∈ r) ∧
      get_closure (plusMachineAscii 'a') r = some r :=
  get_closure_closure_operator "a+" (plusMachineAscii 'a') 0 [2] rfl

end RegexPy

namespace RegexPy

theorem kindOf_appendNext (st : BuildSt) (src tgt i : Nat) :
    kindOf (appendNext st src tgt) i = kindOf st i := by
  unfold kindOf
  rw [kinds_appendNext]

theorem kindOf_out_of_range (st : BuildSt) (i : Nat) (h : numNodes st ≤ i) :
    kindOf st i = Kind.termination :=
  List.getD_eq_default _ _ h

theorem isChar_lt (st : BuildSt) (m : Nat) (h : isChar (kindOf st m) = true) :
    m < numNodes st := by
  by_contra hm
  rw [kindOf_out_of_range st m (by omega)] at h
  simp [isChar] at h

theorem kindOf_alloc_lt (st : BuildSt) (k : Kind) (i : Nat) (h : i < numNodes st) :
    kindOf (alloc st k).1 i = kindOf st i := by
  unfold kindOf alloc
  exact List.getD_append _ _ _ _ h

theorem kindOf_alloc_self (st : BuildSt) (k : Kind) :
    kindOf (alloc st k).1 (numNodes st) = k := by
  unfold kindOf alloc numNodes
  simp

theorem wfChecking_initSt : WfChecking initSt := by
  intro i ch h
  have hik : kindOf initSt i = Kind.termination := rfl
  rcases h with h | h <;> rw [hik] at h <;> exact absurd h (by simp)

theorem wfChecking_appendNext (st : BuildSt) (src tgt : Nat) (hC : WfChecking st) :
    WfChecking (appendNext st src tgt) := by
  intro i ch h
  rw [kindOf_appendNext] at h
  obtain ⟨m, rfl, hm⟩ := hC i ch h
  refine ⟨m, rfl, ?_⟩
  rw [kindOf_appendNext]
  exact hm

theorem wfChecking_alloc (st : BuildSt) (k : Kind) (hC : WfChecking st)
    (hk : ∀ ch, (k = Kind.star ch ∨ k = Kind.plus ch) →
      ∃ m, ch = some m ∧ isChar (kindOf st m) = true) :
    WfChecking (alloc st k).1 := by
  intro i ch hi
  by_cases hlt : i < numNodes st
  · rw [kindOf_alloc_lt st k i hlt] at hi
    obtain ⟨m, rfl, hm⟩ := hC i ch hi
    refine ⟨m, rfl, ?_⟩
    rw [kindOf_alloc_lt st k m (isChar_lt st m hm)]
    exact hm
  · by_cases heq : i = numNodes st
    · subst heq
      rw [kindOf_alloc_self] at hi
      obtain ⟨m, rfl, hm⟩ := hk ch hi
      refine ⟨m, rfl, ?_⟩
      rw [kindOf_alloc_lt st k m (isChar_lt st m hm)]
      exact hm
    · have hge : numNodes (alloc st k).1 ≤ i := by
        rw [numNodes_alloc]
        omega
      rw [kindOf_out_of_range _ _ hge] at hi
      rcases hi with hi | hi <;> exact absurd hi (by simp)

theorem wfChecking_alloc_plain (st : BuildSt) (k : Kind) (hC : WfChecking st)
    (hk : isChar k = true ∨ k = Kind.start ∨ k = Kind.termination) :
    WfChecking (alloc st k).1 := by
  refine wfChecking_alloc st k hC ?_
  intro ch hch
  exfalso
  rcases hk with hk | hk | hk
  · rcases hch with rfl | rfl <;> simp [isChar] at hk
  · subst hk
    rcases hch with h | h <;> exact absurd h (by simp)
  · subst hk
    rcases hch with h | h <;> exact absurd h (by simp)

theorem init_next_state_char (st : BuildSt) (tok : Char) (st' : BuildSt) (i : Nat)
    (hs : tok ≠ '*') (hp : tok ≠ '+')
    (h : init_next_state st tok = .ok (st', i)) :
    ∃ K, isChar K = true ∧ st' = (alloc st K).1 ∧ i = numNodes st := by
  unfold init_next_state at h
  by_cases hd : tok = '.'
  · rw [if_pos hd] at h
    injection h with h
    exact ⟨Kind.dot, rfl, (congrArg Prod.fst h).symm, (congrArg Prod.snd h).symm⟩
  · rw [if_neg hd, if_neg hs, if_neg hp] at h
    by_cases ha : tok.toNat < 128
    · rw [if_pos ha] at h
      injection h with h
      exact ⟨Kind.ascii tok, rfl, (congrArg Prod.fst h).symm, (congrArg Prod.snd h).symm⟩
    · rw [if_neg ha] at h
      exact absurd h (by simp)

theorem buildLoop_wfChecking :
    ∀ (rx : List Char) (st : BuildSt) (cur : Nat) (st' : BuildSt) (cur' : Nat),
      wfPattern rx = true → WfChecking st →
      buildLoop st cur rx = .ok (st', cur') → WfChecking st'
  | [] => by
    intro st cur st' cur' _ hC h
    simp only [buildLoop, Except.ok.injEq, Prod.mk.injEq] at h
    obtain ⟨rfl, rfl⟩ := h
    exact hC
  | tok :: [] => by
    intro st cur st' cur' hw hC h
    simp only [wfPattern, Bool.and_eq_true, decide_eq_true_eq] at hw
    simp only [buildLoop] at h
    rcases hi : init_next_state st tok with e | ⟨st1, nid⟩
    · rw [hi] at h
      exact absurd h (by simp)
    · rw [hi] at h
      dsimp only at h
      obtain ⟨K, hK, rfl, rfl⟩ := init_next_state_char _ _ _ _ hw.1 hw.2 hi
      have hC1 := wfChecking_alloc_plain st K hC (Or.inl hK)
      have hC2 := wfChecking_appendNext _ cur (numNodes st) hC1
      exact buildLoop_wfChecking [] _ _ _ _ rfl hC2 h
  | tok :: q :: rest => by
    intro st cur st' cur' hw hC h
    simp only [buildLoop] at h
    by_cases hq1 : q = '*'
    · rw [if_pos hq1] at h
      simp only [wfPattern, if_pos hq1, Bool.and_eq_true, decide_eq_true_eq] at hw
      rcases hi : init_next_state st tok with e | ⟨st1, ch⟩
      · rw [hi] at h
        exact absurd h (by simp)
      · rw [hi] at h
        dsimp only at h
        obtain ⟨K, hK, rfl, rfl⟩ := init_next_state_char _ _ _ _ hw.1.1 hw.1.2 hi
        have hC1 := wfChecking_alloc_plain st K hC (Or.inl hK)
        have hKs : isChar (kindOf (alloc st K).1 (numNodes st)) = true := by
          rw [kindOf_alloc_self]
          exact hK
        have hside : ∀ ch', (Kind.star (some (numNodes st)) = Kind.star ch' ∨
            Kind.star (some (numNodes st)) = Kind.plus ch') →
            ∃ m, ch' = some m ∧ isChar (kindOf (alloc st K).1 m) = true := by
          intro ch' hch'
          rcases hch' with hch' | hch'
          · injection hch' with h'
            exact ⟨numNodes st, h'.symm, hKs⟩
          · exact absurd hch' (by simp)
        have hC2 := wfChecking_alloc (alloc st K).1 (Kind.star (some (numNodes st))) hC1 hside
        have hC3 := wfChecking_appendNext _ cur (numNodes (alloc st K).1) hC2
        have hC4 := wfChecking_appendNext _ (numNodes (alloc st K).1) (numNodes st) hC3
        have hC5 := wfChecking_appendNext _ (numNodes st) (numNodes (alloc st K).1) hC4
        exact buildLoop_wfChecking rest _ _ _ _ hw.2 hC5 h
    · rw [if_neg hq1] at h
      by_cases hq2 : q = '+'
      · rw [if_pos hq2] at h
        simp only [wfPattern, if_neg hq1, if_pos hq2, Bool.and_eq_true,
          decide_eq_true_eq] at hw
        rcases hi : init_next_state st tok with e | ⟨st1, ch⟩
        · rw [hi] at h
          exact absurd h (by simp)
        · rw [hi] at h
          dsimp only at h
          obtain ⟨K, hK, rfl, rfl⟩ := init_next_state_char _ _ _ _ hw.1.1 hw.1.2 hi
          have hC1 := wfChecking_alloc_plain st K hC (Or.inl hK)
          have hKs : isChar (kindOf (alloc st K).1 (numNodes st)) = true := by
            rw [kindOf_alloc_self]
            exact hK
          have hside : ∀ ch', (Kind.plus (some (numNodes st)) = Kind.star ch' ∨
              Kind.plus (some (numNodes st)) = Kind.plus ch') →
              ∃ m, ch' = some m ∧ isChar (kindOf (alloc st K).1 m) = true := by
            intro ch' hch'
            rcases hch' with hch' | hch'
            · exact absurd hch' (by simp)
            · injection hch' with h'
              exact ⟨numNodes st, h'.symm, hKs⟩
          have hC2 := wfChecking_alloc (alloc st K).1 (Kind.plus (some (numNodes st))) hC1 hside
          have hC3 := wfChecking_appendNext _ cur (numNodes st) hC2
          have hC4 := wfChecking_appendNext _ (numNodes st) (numNodes (alloc st K).1) hC3
          have hC5 := wfChecking_appendNext _ (numNodes (alloc st K).1) (numNodes st) hC4
          exact buildLoop_wfChecking rest _ _ _ _ hw.2 hC5 h
      · rw [if_neg hq2] at h
        simp only [wfPattern, if_neg hq1, if_neg hq2, Bool.and_eq_true,
          decide_eq_true_eq] at hw
        rcases hi : init_next_state st tok with e | ⟨st1, nid⟩
        · rw [hi] at h
          exact absurd h (by simp)
        · rw [hi] at h
          dsimp only at h
          obtain ⟨K, hK, rfl, rfl⟩ := init_next_state_char _ _ _ _ hw.1.1 hw.1.2 hi
          have hC1 := wfChecking_alloc_plain st K hC (Or.inl hK)
          have hC2 := wfChecking_appendNext _ cur (numNodes st) hC1
          exact buildLoop_wfChecking (q :: rest) _ _ _ _ hw.2 hC2 h

theorem RegexFSM_init_wfChecking (st0 : BuildSt) (p : String) (st : BuildSt) (hd : Nat)
    (hC0 : WfChecking st0) (hp : wfPattern p.toList = true)
    (hok : RegexFSM_init st0 p = .ok (st, hd)) : WfChecking st := by
  unfold RegexFSM_init at hok
  dsimp only at hok
  rcases hb : buildLoop (alloc st0 Kind.start).1 (numNodes st0) p.toList with e | ⟨st2, cur⟩
  · rw [hb] at hok
    exact absurd hok (by simp)
  · rw [hb] at hok
    dsimp only at hok
    simp only [Except.ok.injEq, Prod.mk.injEq] at hok
    obtain ⟨rfl, rfl⟩ := hok
    have hC1 := wfChecking_alloc_plain st0 Kind.start hC0 (Or.inr (Or.inl rfl))
    have hC2 := buildLoop_wfChecking _ _ _ _ _ hp hC1 hb
    have hC3 := wfChecking_alloc_plain st2 Kind.termination hC2 (Or.inr (Or.inr rfl))
    exact wfChecking_appendNext _ cur (numNodes st2) hC3

end RegexPy

namespace RegexPy

theorem checkSelf_char_ok (st : BuildSt) (k : Nat) (c : Char) (fuel : Nat)
    (hk : isChar (kindOf st k) = true) :
    ∃ b, checkSelf st (fuel + 1) k c = .ok b := by
  cases hkind : kindOf st k
  case start => rw [hkind] at hk; simp [isChar] at hk
  case termination => rw [hkind] at hk; simp [isChar] at hk
  case star ch => rw [hkind] at hk; simp [isChar] at hk
  case plus ch => rw [hkind] at hk; simp [isChar] at hk
  case dot => exact ⟨true, by simp only [checkSelf, hkind]⟩
  case ascii sym => exact ⟨decide (sym = c), by simp only [checkSelf, hkind]⟩

theorem checkSelf_selfFuel_ok (st : BuildSt) (k : Nat) (c : Char)
    (hk : isChar (kindOf st k) = true) :
    ∃ b, checkSelf st (selfFuel st) k c = .ok b :=
  checkSelf_char_ok st k c (numNodes st + 1) hk

theorem rawNext_ok (st : BuildSt) (hC : WfChecking st) (c : Char) :
    ∀ (l acc : List Nat), ∃ r, rawNext st c l acc = .ok r := by
  intro l
  induction l with
  | nil => intro acc; exact ⟨acc, rfl⟩
  | cons i rest ih =>
    intro acc
    cases hk : kindOf st i
    case start =>
      obtain ⟨r, hr⟩ := ih acc
      exact ⟨r, by simp only [rawNext, hk]; exact hr⟩
    case termination =>
      obtain ⟨r, hr⟩ := ih acc
      exact ⟨r, by simp only [rawNext, hk]; exact hr⟩
    case dot =>
      obtain ⟨r, hr⟩ := ih (addUnique acc (nextsOf st i))
      exact ⟨r, by simp only [rawNext, hk]; exact hr⟩
    case ascii sym =>
      by_cases hsc : sym = c
      · obtain ⟨r, hr⟩ := ih (addUnique acc (nextsOf st i))
        exact ⟨r, by simp only [rawNext, hk, if_pos hsc]; exact hr⟩
      · obtain ⟨r, hr⟩ := ih acc
        exact ⟨r, by simp only [rawNext, hk, if_neg hsc]; exact hr⟩
    case star ch =>
      obtain ⟨k, rfl, hkc⟩ := hC i ch (Or.inl hk)
      obtain ⟨b, hb⟩ := checkSelf_selfFuel_ok st k c hkc
      cases b
      · obtain ⟨r, hr⟩ := ih acc
        exact ⟨r, by simp only [rawNext, hk, hb]; exact hr⟩
      · obtain ⟨r, hr⟩ := ih (addUnique acc (nextsOf st k))
        exact ⟨r, by simp only [rawNext, hk, hb]; exact hr⟩
    case plus ch =>
      obtain ⟨k, rfl, hkc⟩ := hC i ch (Or.inr hk)
      obtain ⟨b, hb⟩ := checkSelf_selfFuel_ok st k c hkc
      cases b
      · obtain ⟨r, hr⟩ := ih acc
        exact ⟨r, by simp only [rawNext, hk, hb]; exact hr⟩
      · obtain ⟨r, hr⟩ := ih (addUnique acc (nextsOf st k))
        exact ⟨r, by simp only [rawNext, hk, hb]; exact hr⟩

theorem charLoop_total (st : BuildSt) (hB : WfBounds st) (hC : WfChecking st) :
    ∀ (cs : List Char) (active : List Nat), ∃ b, charLoop st active cs = .ok b := by
  intro cs
  induction cs with
  | nil => intro active; exact ⟨_, rfl⟩
  | cons c rest ih =>
    intro active
    obtain ⟨raw, hraw⟩ := rawNext_ok st hC c active []
    by_cases hre : raw = []
    · exact ⟨false, by simp only [charLoop, hraw, if_pos hre]⟩
    · obtain ⟨r, hcl, _, _⟩ := get_closure_spec st hB raw
      obtain ⟨b, hb⟩ := ih r
      exact ⟨b, by simp only [charLoop, hraw, if_neg hre, hcl]; exact hb⟩

/-- C3 (amended): for every automaton successfully returned by `build` from a
pattern in which every `*` and `+` stands in quantifier position (is consumed
by the builder's look-ahead), `matches` is total: it returns a boolean for
every input string and raises no error — in particular the dead
`check_next` raise (`NotImplementedError("rejected string")`) never surfaces,
since `check_string` never calls `check_next`.  (Unrestricted, the claim is
false: see the counterexample, where a quantifier token in character position
builds a wrapper with `checking_state = None` and `matches` raises
`AttributeError`.) -/
theorem check_string_total (p : String) (st : BuildSt) (hd : Nat) (s : String)
    (hp : wfPattern p.toList = true) (hok : RegexFSM_init initSt p = .ok (st, hd)) :
    ∃ b, check_string st hd s = .ok b := by
  have hB := RegexFSM_init_wf initSt p st hd wfBounds_initSt hok
  have hC := RegexFSM_init_wfChecking initSt p st hd wfChecking_initSt hp hok
  obtain ⟨a0, ha0, _, _⟩ := get_closure_spec st hB [hd]
  obtain ⟨b, hb⟩ := charLoop_total st hB hC s.toList a0
  exact ⟨b, by simp only [check_string, ha0]; exact hb⟩

/-- C3 witness: totality at the pattern `"a"` and input `"b"`. -/
theorem check_string_total_witness :
    ∃ b, check_string singleAMachine 0 "b" = .ok b :=
  check_string_total "a" singleAMachine 0 "b" (by decide) rfl

end RegexPy

namespace RegexPy

theorem init_next_state_err (st : BuildSt) (tok : Char) (h : 128 ≤ tok.toNat) :
    init_next_state st tok = .error PyErr.attributeError := by
  have hd : tok ≠ '.' := by rintro rfl; exact absurd h (by decide)
  have hs : tok ≠ '*' := by rintro rfl; exact absurd h (by decide)
  have hp : tok ≠ '+' := by rintro rfl; exact absurd h (by decide)
  unfold init_next_state
  rw [if_neg hd, if_neg hs, if_neg hp, if_neg (by omega)]

theorem init_next_state_ascii_ok (st : BuildSt) (tok : Char) (h : tok.toNat < 128) :
    ∃ p, init_next_state st tok = .ok p := by
  unfold init_next_state
  split_ifs <;> exact ⟨_, rfl⟩

theorem buildLoop_err :
    ∀ (rx : List Char) (st : BuildSt) (cur : Nat),
      (∃ c ∈ rx, 128 ≤ c.toNat) →
      buildLoop st cur rx = .error PyErr.attributeError
  | [] => by
    rintro st cur ⟨c, hc, _⟩
    exact absurd hc (List.not_mem_nil c)
  | tok :: [] => by
    rintro st cur ⟨c, hc, hcn⟩
    rcases List.mem_cons.mp hc with rfl | hc
    · simp only [buildLoop, init_next_state_err st c hcn]
    · exact absurd hc (List.not_mem_nil c)
  | tok :: q :: rest => by
    rintro st cur ⟨c, hc, hcn⟩
    by_cases htok : 128 ≤ tok.toNat
    · simp only [buildLoop, init_next_state_err st tok htok]
      by_cases hq1 : q = '*'
      · rw [if_pos hq1]
      · rw [if_neg hq1]
        by_cases hq2 : q = '+'
        · rw [if_pos hq2]
        · rw [if_neg hq2]
    · have hct : c ≠ tok := by rintro rfl; exact htok hcn
      have hc2 : c ∈ q :: rest := by
        rcases List.mem_cons.mp hc with rfl | h
        · exact absurd rfl hct
        · exact h
      obtain ⟨⟨st1, nid⟩, hi⟩ := init_next_state_ascii_ok st tok (by omega)
      simp only [buildLoop, hi]
      by_cases hq1 : q = '*'
      · rw [if_pos hq1]
        refine buildLoop_err rest _ _ ⟨c, ?_, hcn⟩
        rcases List.mem_cons.mp hc2 with rfl | h
        · exact absurd hcn (by rw [hq1]; decide)
        · exact h
      · rw [if_neg hq1]
        by_cases hq2 : q = '+'
        · rw [if_pos hq2]
          refine buildLoop_err rest _ _ ⟨c, ?_, hcn⟩
          rcases List.mem_cons.mp hc2 with rfl | h
          · exact absurd hcn (by rw [hq2]; decide)
          · exact h
        · rw [if_neg hq2]
          exact buildLoop_err (q :: rest) _ _ ⟨c, hc2, hcn⟩

/-- C5 (amended): `build` fails — with the `AttributeError` that
`__init_next_state` raises — for every pattern containing a character that is
neither `.` nor an ASCII character, i.e. any character with code point at
least 128; it never returns an automaton for such a pattern.  ASCII
punctuation such as `[` is *not* an invalid token for this code: it is
compiled as an ordinary literal (see the counterexample). -/
theorem build_fails_on_nonascii (st0 : BuildSt) (p : String)
    (hc : ∃ c ∈ p.toList, 128 ≤ c.toNat) :
    RegexFSM_init st0 p = .error PyErr.attributeError := by
  unfold RegexFSM_init
  dsimp only
  rw [buildLoop_err p.toList _ _ hc]

/-- C5 witness: the non-ASCII pattern `"é"` from a fresh module state. -/
theorem build_fails_on_nonascii_witness :
    RegexFSM_init initSt "é" = .error PyErr.attributeError :=
  build_fails_on_nonascii initSt "é" (by decide)

end RegexPy

namespace RegexPy

theorem rawNext_cons_skip (st : BuildSt) (c : Char) (i : Nat) (rest acc : List Nat)
    (hk : kindOf st i = Kind.start ∨ kindOf st i = Kind.termination) :
    rawNext st c (i :: rest) acc = rawNext st c rest acc := by
  rcases hk with hk | hk <;> simp only [rawNext, hk]

theorem rawNext_cons_ascii_eq (st : BuildSt) (c : Char) (i : Nat) (rest acc : List Nat)
    (sym : Char) (hk : kindOf st i = Kind.ascii sym) (hsc : sym = c) :
    rawNext st c (i :: rest) acc = rawNext st c rest (addUnique acc (nextsOf st i)) := by
  simp only [rawNext, hk, if_pos hsc]

theorem rawNext_cons_ascii_ne (st : BuildSt) (c : Char) (i : Nat) (rest acc : List Nat)
    (sym : Char) (hk : kindOf st i = Kind.ascii sym) (hsc : ¬sym = c) :
    rawNext st c (i :: rest) acc = rawNext st c rest acc := by
  simp only [rawNext, hk, if_neg hsc]

theorem rawNext_cons_plus_true (st : BuildSt) (c : Char) (i : Nat) (rest acc : List Nat)
    (k : Nat) (hk : kindOf st i = Kind.plus (some k))
    (hcs : checkSelf st (selfFuel st) k c = .ok true) :
    rawNext st c (i :: rest) acc = rawNext st c rest (addUnique acc (nextsOf st k)) := by
  simp only [rawNext, hk, hcs]

theorem rawNext_cons_plus_false (st : BuildSt) (c : Char) (i : Nat) (rest acc : List Nat)
    (k : Nat) (hk : kindOf st i = Kind.plus (some k))
    (hcs : checkSelf st (selfFuel st) k c = .ok false) :
    rawNext st c (i :: rest) acc = rawNext st c rest acc := by
  simp only [rawNext, hk, hcs]

theorem build_plus_dot :
    RegexFSM_init initSt (String.mk ['.', '+']) = .ok (plusMachineDot, 0) := rfl

theorem build_plus_ascii (x : Char) (hd : x ≠ '.') (hs : x ≠ '*') (hp : x ≠ '+')
    (ha : x.toNat < 128) :
    RegexFSM_init initSt (String.mk [x, '+']) = .ok (plusMachineAscii x, 0) := by
  have hi : init_next_state (alloc initSt Kind.start).1 x =
      .ok ((alloc (alloc initSt Kind.start).1 (Kind.ascii x)).1, 1) := by
    unfold init_next_state
    rw [if_neg hd, if_neg hs, if_neg hp, if_pos ha]
    exact rfl
  unfold RegexFSM_init
  dsimp only
  have hbl : buildLoop (alloc initSt Kind.start).1 (numNodes initSt)
        (String.mk [x, '+']).toList =
      .ok (⟨[Kind.start, Kind.ascii x, Kind.plus (some 1)],
        [1], [], [], [2], [], [1]⟩, 2) := by
    show buildLoop (alloc initSt Kind.start).1 0 (x :: '+' :: []) = _
    simp only [buildLoop, hi]
    split_ifs with h1
    · exact absurd h1 (by decide)
    · exact rfl
  rw [hbl]
  exact rfl

theorem asciiPlus_checkSelf (x c : Char) :
    checkSelf (plusMachineAscii x) (selfFuel (plusMachineAscii x)) 1 c =
      .ok (decide (x = c)) := rfl

theorem dotPlus_loop : ∀ cs : List Char, charLoop plusMachineDot [2, 3] cs = .ok true := by
  intro cs
  induction cs with
  | nil => rfl
  | cons c cs ih =>
    have hstep : charLoop plusMachineDot [2, 3] (c :: cs) =
        charLoop plusMachineDot [2, 3] cs := rfl
    rw [hstep, ih]

theorem asciiPlus_loop (x : Char) :
    ∀ cs : List Char,
      charLoop (plusMachineAscii x) [2, 3] cs = .ok (decide (∀ c ∈ cs, x = c)) := by
  intro cs
  induction cs with
  | nil => rfl
  | cons c cs ih =>
    by_cases h : x = c
    · have hcs : checkSelf (plusMachineAscii x) (selfFuel (plusMachineAscii x)) 1 c =
          .ok true := by
        rw [asciiPlus_checkSelf, decide_eq_true h]
      have hraw : rawNext (plusMachineAscii x) c [2, 3] [] = .ok [2] := by
        rw [rawNext_cons_plus_true (plusMachineAscii x) c 2 [3] [] 1 rfl hcs]
        exact rfl
      have hstep : charLoop (plusMachineAscii x) [2, 3] (c :: cs) =
          charLoop (plusMachineAscii x) [2, 3] cs := by
        simp only [charLoop, hraw]
        rw [show get_closure (plusMachineAscii x) [2] = some [2, 3] from rfl]
        exact rfl
      rw [hstep, ih]
      congr 1
      rw [decide_eq_decide]
      simp [List.forall_mem_cons, h]
    · have hcs : checkSelf (plusMachineAscii x) (selfFuel (plusMachineAscii x)) 1 c =
          .ok false := by
        rw [asciiPlus_checkSelf, decide_eq_false h]
      have hraw : rawNext (plusMachineAscii x) c [2, 3] [] = .ok [] := by
        rw [rawNext_cons_plus_false (plusMachineAscii x) c 2 [3] [] 1 rfl hcs]
        exact rfl
      have hstep : charLoop (plusMachineAscii x) [2, 3] (c :: cs) = .ok false := by
        simp only [charLoop, hraw]
        exact rfl
      rw [hstep]
      congr 1
      symm
      exact decide_eq_false (fun hall => h (hall c (List.mem_cons_self c cs)))

/-- C7: for every quantifiable token `x` (a non-quantifier ASCII literal or
`.`), the automaton built from the pattern `x+` rejects the empty string and
accepts exactly the non-empty strings all of whose characters match `x`
(every character for `.`, the character `x` itself for a literal). -/
theorem plus_pattern_spec (x : Char) (s : String)
    (hx : x = '.' ∨ (x ≠ '*' ∧ x ≠ '+' ∧ x.toNat < 128)) :
    ∃ st, RegexFSM_init initSt (String.mk [x, '+']) = .ok (st, 0) ∧
      check_string st 0 s =
        .ok (decide (s.toList ≠ [] ∧ ∀ c ∈ s.toList, x = '.' ∨ x = c)) := by
  by_cases hdot : x = '.'
  · subst hdot
    refine ⟨plusMachineDot, build_plus_dot, ?_⟩
    unfold check_string
    rw [show get_closure plusMachineDot [0] = some [0, 1] from rfl]
    cases hls : String.toList s with
    | nil => rfl
    | cons c cs =>
      show charLoop plusMachineDot [0, 1] (c :: cs) = _
      have hstep : charLoop plusMachineDot [0, 1] (c :: cs) =
          charLoop plusMachineDot [2, 3] cs := rfl
      rw [hstep, dotPlus_loop cs]
      congr 1
      symm
      apply decide_eq_true
      exact ⟨by simp, fun c hc => Or.inl rfl⟩
  · obtain ⟨hs, hp, ha⟩ := hx.resolve_left hdot
    refine ⟨plusMachineAscii x, build_plus_ascii x hdot hs hp ha, ?_⟩
    unfold check_string
    rw [show get_closure (plusMachineAscii x) [0] = some [0, 1] from rfl]
    cases hls : String.toList s with
    | nil => rfl
    | cons c cs =>
      show charLoop (plusMachineAscii x) [0, 1] (c :: cs) = _
      by_cases hxc : x = c
      · have hraw : rawNext (plusMachineAscii x) c [0, 1] [] = .ok [2] := by
          rw [rawNext_cons_skip (plusMachineAscii x) c 0 [1] [] (Or.inl rfl)]
          rw [rawNext_cons_ascii_eq (plusMachineAscii x) c 1 [] [] x rfl hxc]
          exact rfl
        have hstep : charLoop (plusMachineAscii x) [0, 1] (c :: cs) =
            charLoop (plusMachineAscii x) [2, 3] cs := by
          simp only [charLoop, hraw]
          rw [show get_closure (plusMachineAscii x) [2] = some [2, 3] from rfl]
          exact rfl
        rw [hstep, asciiPlus_loop x cs]
        congr 1
        rw [decide_eq_decide]
        constructor
        · intro hall
          refine ⟨by simp, ?_⟩
          intro a hac
          rcases List.mem_cons.mp hac with rfl | hac
          · exact Or.inr hxc
          · exact Or.inr (hall a hac)
        · rintro ⟨-, hall⟩
          intro a hac
          rcases hall a (List.mem_cons_of_mem c hac) with h | h
          · exact absurd h hdot
          · exact h
      · have hraw : rawNext (plusMachineAscii x) c [0, 1] [] = .ok [] := by
          rw [rawNext_cons_skip (plusMachineAscii x) c 0 [1] [] (Or.inl rfl)]
          rw [rawNext_cons_ascii_ne (plusMachineAscii x) c 1 [] [] x rfl hxc]
          exact rfl
        have hstep : charLoop (plusMachineAscii x) [0, 1] (c :: cs) = .ok false := by
          simp only [charLoop, hraw]
          exact rfl
        rw [hstep]
        congr 1
        symm
        apply decide_eq_false
        rintro ⟨-, hall⟩
        rcases hall c (List.mem_cons_self c cs) with h | h
        · exact hdot h
        · exact hxc h

/-- C7 witness: the pattern `"a+"` at the concrete inputs `"aa"` and `""`. -/
theorem plus_pattern_spec_witness :
    (∃ st, RegexFSM_init initSt (String.mk ['a', '+']) = .ok (st, 0) ∧
      check_string st 0 "aa" =
        .ok (decide (("aa" : String).toList ≠ [] ∧
          ∀ c ∈ ("aa" : String).toList, 'a' = '.' ∨ 'a' = c))) ∧
    (∃ st, RegexFSM_init initSt (String.mk ['a', '+']) = .ok (st, 0) ∧
      check_string st 0 "" =
        .ok (decide (("" : String).toList ≠ [] ∧
          ∀ c ∈ ("" : String).toList, 'a' = '.' ∨ 'a' = c))) :=
  ⟨plus_pattern_spec 'a' "aa" (by decide), plus_pattern_spec 'a' "" (by decide)⟩

end RegexPy
